import Mathlib

/-!
Verification of the `codebase-to-prompt` tool (a Rust program in `src/src/lib.rs`
and `src/src/main.rs`).

The program walks a directory tree, filters entries by hidden-name and gitignore
rules, filters files by extension include/exclude lists, and renders each
surviving file's text content as a formatted block (Markdown / plain text /
console) into a single output stream.

Shallow embedding conventions used throughout this file:

* Text is modelled as `List Char`; `str` converts a Lean string literal.
* A filesystem path is a list of components (`List (List Char)`); the walk
  root contributes exactly one component, so `config.directory` corresponds to
  a one-component prefix and `Path::strip_prefix(&config.directory)` becomes
  `List.drop 1`.
* The gitignore matcher (`ignore::gitignore::Gitignore::matched(path, is_dir)
  .is_ignore()`) is an abstract parameter `IgnoreMatcher`.
* Fallible effects (opening the output file, opening the git repository,
  reading HEAD, accessing a walk entry, reading a file, writing a block) are
  modelled as explicit inputs; the run-level functions return `Except`.
* `writeln!` appends the formatted text plus a single `'\n'`.
-/

/-- Convert a Lean string literal to the `List Char` text representation. -/
def str (s : String) : List Char := s.data

/-- Output format, from `enum Format` in `src/src/lib.rs` (Markdown, Text,
Console). -/
inductive Format where
  | markdown
  | text
  | console
deriving DecidableEq, Repr

/-- Configuration, from `struct Config` in `src/src/lib.rs`.  The `directory`
field is represented implicitly by the walk root (one path component); the
`include`/`exclude` extension lists are `includeExts`/`excludeExts`. -/
structure Config where
  includeExts : List (List Char)
  excludeExts : List (List Char)
  format : Format
  appendDate : Bool
  appendGitHash : Bool
  lineNumbers : Bool
  ignoreHidden : Bool
  respectGitignore : Bool
  output : Option (List Char)
deriving DecidableEq, Repr

/-- Rust `str::lines` segment finisher: a segment accumulated in reverse order
that was terminated by `'\n'` additionally loses one trailing `'\r'`
(`\r\n` line endings). -/
def finishLine (acc : List Char) : List Char :=
  if acc.head? = some '\r' then acc.tail.reverse else acc.reverse

/-- Worker for `rustLines`: `acc` holds the current line in reverse.  A final
segment not terminated by `'\n'` is emitted as-is (no `'\r'` stripping), and a
trailing `'\n'` produces no extra empty line, exactly as Rust's `str::lines`. -/
def rustLinesAux : List Char → List Char → List (List Char)
  | [], acc => if acc.isEmpty then [] else [acc.reverse]
  | c :: cs, acc =>
      if c = '\n' then finishLine acc :: rustLinesAux cs []
      else rustLinesAux cs (c :: acc)

/-- Embedding of Rust's `content.lines()` iterator. -/
def rustLines (content : List Char) : List (List Char) :=
  rustLinesAux content []

/-- Decimal digits of a line number, as Rust's `{}` formatting of a `usize`. -/
def numStr (n : Nat) : List Char := Nat.toDigits 10 n

/-- Rust's `{:4}` width specifier: left-pad with spaces to at least four
characters (wider numbers are not truncated). -/
def pad4 (s : List Char) : List Char := List.replicate (4 - s.length) ' ' ++ s

/-- The numbered-line loop of `write_content_lines`
(`for (i, line) in content.lines().enumerate()` writing `"{:4} | {}"`,
with `i + 1` as the printed number); `i` is the current 0-based index. -/
def writeNumbered : Nat → List (List Char) → List Char
  | _, [] => []
  | i, l :: ls =>
      pad4 (numStr (i + 1)) ++ str " | " ++ l ++ ['\n'] ++ writeNumbered (i + 1) ls

/-- Embedding of `write_content_lines` from `src/src/lib.rs`: with line numbers
each line is written as `"{:4} | {}"`; without, the whole content is written by
one `writeln!` (which appends a `'\n'`). -/
def writeContentLines (lineNumbers : Bool) (content : List Char) : List Char :=
  if lineNumbers then writeNumbered 0 (rustLines content)
  else content ++ ['\n']

/-- What one `writeln!` emits: its text followed by a newline. -/
def writelnStr (s : List Char) : List Char := s ++ ['\n']

/-- Embedding of `write_file_content` from `src/src/lib.rs`.  `path` is the
display of the relative path, `content` the file text, `ext` the extension. -/
def writeFileContent (fmt : Format) (path content ext : List Char)
    (lineNumbers : Bool) : List Char :=
  match fmt with
  | .markdown =>
      writelnStr (str "### `" ++ path ++ str "`\n") ++
      writelnStr (str "```" ++ ext) ++
      writeContentLines lineNumbers content ++
      writelnStr (str "```\n")
  | .text | .console =>
      writelnStr (str "./" ++ path ++ str "\n---") ++
      writeContentLines lineNumbers content ++
      writelnStr (str "---")

/-- Display of a component path, components joined by `'/'`
(Rust `Path::display`). -/
def pathDisplay : List (List Char) → List Char
  | [] => []
  | [x] => x
  | x :: xs => x ++ '/' :: pathDisplay xs

/-- Worker for `rustExtension` / `rustFileStem`: scans the reversed file name,
accumulating the characters after the final dot.  Returns `none` when no dot is
found or when the only remaining characters before the dot are empty (a name
whose single leading character is the dot, e.g. `.gitignore`), mirroring Rust's
`Path::extension`. -/
def extFromRev : List Char → List Char → Option (List Char)
  | [], _ => none
  | c :: rest, acc =>
      if c = '.' then (if rest.isEmpty then none else some acc)
      else extFromRev rest (c :: acc)

/-- Embedding of `path.extension().and_then(|s| s.to_str()).unwrap_or("")` in
`process_file_entry` (`src/src/lib.rs:195`), applied to the file name: the part
after the final `.`, except that a name with no `.`, or whose only `.` is its
first character, has extension `""`. -/
def rustExtension (name : List Char) : List Char :=
  (extFromRev name.reverse []).getD []

/-- Embedding of Rust's `Path::file_stem` (used by `append_date_and_git_hash`):
the file name with its extension (and the dot) removed; the whole name when the
extension is `None`. -/
def rustFileStem (name : List Char) : List Char :=
  match extFromRev name.reverse [] with
  | none => name
  | some e => name.take (name.length - (e.length + 1))

/-- Modelled from the spec's words, for comparison with `rustExtension`
(claim about "the substring after the final `.` in the name, and the empty
string when the name contains no `.`"). -/
def specExtension (name : List Char) : List Char :=
  if '.' ∈ name then (name.reverse.takeWhile (fun c => !(c = '.'))).reverse
  else []

/-- The include-filter activation test of `process_file_entry`
(`src/src/lib.rs:197`): `!(include.is_empty() || include.len() == 1 &&
include[0].is_empty())`. -/
def applyIncludeFilter (cfg : Config) : Bool :=
  !(cfg.includeExts.isEmpty ||
    (cfg.includeExts.length == 1 && (cfg.includeExts.headD [' ']).isEmpty))

/-- The two early-return extension checks of `process_file_entry`
(`src/src/lib.rs:200` and `:204`): reject when an active include list misses
the extension, then reject when the exclude list contains it. -/
def extensionAccepts (cfg : Config) (ext : List Char) : Bool :=
  if applyIncludeFilter cfg && !(decide (ext ∈ cfg.includeExts)) then false
  else if decide (ext ∈ cfg.excludeExts) then false
  else true

/-- A walked directory entry (`walkdir::DirEntry`): its path (component list,
root component included), its file name (for the root entry `walkdir` falls
back to the full root path when the path has no final component, e.g. `.`),
whether it is a directory, and its text content when it is a file. -/
structure Entry where
  path : List (List Char)
  name : List Char
  isDir : Bool
  content : List Char
deriving DecidableEq, Repr

/-- `s.starts_with('.')` on a file name. -/
def startsWithDot (s : List Char) : Bool :=
  match s with
  | c :: _ => c == '.'
  | [] => false

/-- Embedding of `is_hidden` (`src/src/lib.rs:284`): `ignore_hidden` is set and
the entry's file name starts with `.`. -/
def isHidden (cfg : Config) (e : Entry) : Bool :=
  cfg.ignoreHidden && startsWithDot e.name

/-- The `Gitignore::matched(path, is_dir).is_ignore()` oracle, abstracted. -/
abbrev IgnoreMatcher := List (List Char) → Bool → Bool

/-- Embedding of `is_ignored` (`src/src/lib.rs:302`): `respect_gitignore` is
set and the ignore rule set matches the entry's path (with its directory
flag) as ignored. -/
def isIgnored (g : IgnoreMatcher) (cfg : Config) (e : Entry) : Bool :=
  cfg.respectGitignore && g e.path e.isDir

/-- Embedding of `should_include_entry` (`src/src/lib.rs:176`). -/
def shouldIncludeEntry (g : IgnoreMatcher) (cfg : Config) (e : Entry) : Bool :=
  !isHidden cfg e && !isIgnored g cfg e

/-- Embedding of `process_file_entry` (`src/src/lib.rs:189`): directories are
skipped silently, the extension filter is applied, and a surviving file is
rendered with its path relative to the root (`strip_prefix(&config.directory)`,
i.e. with the root component dropped).  `none` means nothing was written.  In
this pure model every file's content reads successfully as UTF-8; read
failures are modelled separately at the run level. -/
def processFileEntry (cfg : Config) (e : Entry) : Option (List Char) :=
  if e.isDir then none
  else
    let ext := rustExtension e.name
    if extensionAccepts cfg ext then
      some (writeFileContent cfg.format (pathDisplay (e.path.drop 1))
        e.content ext cfg.lineNumbers)
    else none

/-- A filesystem tree: the input on which the walk operates.  A directory
carries its child nodes; a file carries its text content. -/
inductive FSNode where
  | file (name content : List Char)
  | dir (name : List Char) (children : List FSNode)

/-- The name of a node (its final path component; for the walk root, the name
`walkdir` reports for the root entry). -/
def FSNode.name : FSNode → List Char
  | .file n _ => n
  | .dir n _ => n

mutual

/-- Embedding of the `WalkDir::new(..).into_iter().filter_entry(..)` traversal
of `process_directory` (`src/src/lib.rs:145`): depth-first pre-order; an entry
failing `should_include_entry` is not yielded and its subtree is not visited.
The predicate is applied to the root entry as well, as `filter_entry` does. -/
def walk (g : IgnoreMatcher) (cfg : Config) (parent : List (List Char)) :
    FSNode → List Entry
  | .file n c =>
      let e : Entry := ⟨parent ++ [n], n, false, c⟩
      if shouldIncludeEntry g cfg e then [e] else []
  | .dir n ch =>
      let e : Entry := ⟨parent ++ [n], n, true, []⟩
      if shouldIncludeEntry g cfg e then
        e :: walkList g cfg (parent ++ [n]) ch
      else []

/-- Walk of a list of sibling nodes, in order. -/
def walkList (g : IgnoreMatcher) (cfg : Config) (parent : List (List Char)) :
    List FSNode → List Entry
  | [] => []
  | t :: ts => walk g cfg parent t ++ walkList g cfg parent ts

end

mutual

/-- All file entries of a tree, regardless of any filtering: the universe over
which "a file rejected by the filters" is quantified. -/
def allFiles (parent : List (List Char)) : FSNode → List Entry
  | .file n c => [⟨parent ++ [n], n, false, c⟩]
  | .dir n ch => allFilesList (parent ++ [n]) ch

/-- All file entries of a list of sibling nodes. -/
def allFilesList (parent : List (List Char)) : List FSNode → List Entry
  | [] => []
  | t :: ts => allFiles parent t ++ allFilesList parent ts

end

/-- The entries of a run that actually get a rendered block. -/
def renderedEntries (g : IgnoreMatcher) (cfg : Config) (t : FSNode) :
    List Entry :=
  (walk g cfg [] t).filter (fun e => (processFileEntry cfg e).isSome)

/-- The content stream a run writes to its sink: the concatenation, in
traversal order, of the rendered blocks of the surviving files
(`process_directory`'s loop body). -/
def runContent (g : IgnoreMatcher) (cfg : Config) (t : FSNode) : List Char :=
  ((walk g cfg [] t).filterMap (processFileEntry cfg)).flatten

deriving instance DecidableEq for Except

/-- State of `git2::Repository` for the configured directory: whether
`Repository::open` succeeds, and when it does, the result of `repo.head()`
(error, or a HEAD whose `target()` is `none` or a commit id string). -/
structure RepoState where
  opens : Bool
  head : Except (List Char) (Option (List Char))
deriving DecidableEq, Repr

/-- Whether an `Except` value is an error. -/
def isErrB {α : Type} : Except (List Char) α → Bool
  | .error _ => true
  | .ok _ => false

/-- Embedding of `append_date_and_git_hash` (`src/src/lib.rs:78`), on the
output file name (the directory part of the path is unaffected by
`set_file_name` and is not modelled): rebuild the name from its stem, a
`_date` suffix when `append_date`, a `_<7-char-hash>` suffix when
`append_git_hash` and the directory opens as a repository whose HEAD has a
target, and the original extension.  A HEAD read error is propagated
(`repo.head().context(..)?`); a directory that is not a repository only logs a
warning. -/
def appendDateAndGitHash (cfg : Config) (date : List Char) (repo : RepoState) :
    Except (List Char) (Option (List Char)) :=
  match cfg.output with
  | none => Except.ok none
  | some path =>
      let stem := rustFileStem path
      let s1 := if cfg.appendDate then stem ++ '_' :: date else stem
      let hstep : Except (List Char) (List Char) :=
        if cfg.appendGitHash then
          if repo.opens then
            match repo.head with
            | .error _ => Except.error (str "Failed to get repository HEAD")
            | .ok none => Except.ok s1
            | .ok (some oid) => Except.ok (s1 ++ '_' :: oid.take 7)
          else Except.ok s1
        else Except.ok s1
      match hstep with
      | .error e => Except.error e
      | .ok s2 =>
          Except.ok (some (match extFromRev path.reverse [] with
            | some ext => s2 ++ '.' :: ext
            | none => s2))

/-- Embedding of `determine_output_writer` (`src/src/lib.rs:122`): with an
output path, `File::create` may fail (the `sinkOk` oracle says whether creation
at a given name succeeds); without one, the buffered stdout writer always
succeeds. -/
def determineOutputWriter (outPath : Option (List Char))
    (sinkOk : List Char → Bool) : Except (List Char) Unit :=
  match outPath with
  | some p =>
      if sinkOk p then Except.ok ()
      else Except.error (str "Failed to create output file")
  | none => Except.ok ()

/-- One iteration of the `process_directory` loop over a walker result: an
inaccessible entry (`Err`) is logged and skipped; for an accessible entry,
`process_file_entry` may skip it, its content read may fail (`readOk` false:
logged, skipped), or writing its block may fail (`writeOk` false: logged, the
block abandoned).  Only a successful iteration contributes output. -/
def processEntryStep (cfg : Config) (readOk writeOk : Entry → Bool)
    (r : Except (List Char) Entry) : List Char :=
  match r with
  | .error _ => []
  | .ok e =>
      match processFileEntry cfg e with
      | none => []
      | some block => if readOk e && writeOk e then block else []

/-- Embedding of `process_directory` (`src/src/lib.rs:142`) over the walker's
result sequence (an inaccessible root directory is the sequence consisting of
one `Err`): every per-entry problem is logged and the loop continues, so the
function always returns `Ok` with the content it wrote. -/
def processDirectoryE (cfg : Config) (readOk writeOk : Entry → Bool)
    (results : List (Except (List Char) Entry)) :
    Except (List Char) (List Char) :=
  Except.ok ((results.map (processEntryStep cfg readOk writeOk)).flatten)

/-- Embedding of `run` (`src/src/lib.rs:58`): decorate the output name when
requested, open the sink, then process the directory.  The `?` operators are
the two `match`es on errors.  The `Ok` payload is the content stream written,
so that the run's observable output is part of the model. -/
def runE (cfg : Config) (date : List Char) (repo : RepoState)
    (sinkOk : List Char → Bool) (readOk writeOk : Entry → Bool)
    (results : List (Except (List Char) Entry)) :
    Except (List Char) (List Char) :=
  match (if cfg.appendDate || cfg.appendGitHash
         then appendDateAndGitHash cfg date repo
         else Except.ok cfg.output) with
  | .error e => Except.error e
  | .ok outPath =>
      match determineOutputWriter outPath sinkOk with
      | .error e => Except.error e
      | .ok _ => processDirectoryE cfg readOk writeOk results

/-- The decorated output file name `append_date_and_git_hash` produces on a
successful step (HEAD errors aside): stem, optional date suffix, optional hash
suffix, original extension. -/
def finalOutputName (cfg : Config) (date : List Char) (repo : RepoState)
    (path : List Char) : List Char :=
  let stem := rustFileStem path
  let s1 := if cfg.appendDate then stem ++ '_' :: date else stem
  let s2 :=
    if cfg.appendGitHash && repo.opens then
      match repo.head with
      | Except.ok (some oid) => s1 ++ '_' :: oid.take 7
      | _ => s1
    else s1
  match extFromRev path.reverse [] with
  | some ext => s2 ++ '.' :: ext
  | none => s2

/-- The name at which the sink is created: decorated when a date or git-hash
suffix was requested, the configured name otherwise. -/
def resolvedOutputName (cfg : Config) (date : List Char) (repo : RepoState)
    (path : List Char) : List Char :=
  if cfg.appendDate || cfg.appendGitHash then finalOutputName cfg date repo path
  else path

/-- The run-aborting HEAD failure: git-hash append requested, the directory
opens as a repository, and reading HEAD fails. -/
def gitHeadFailsB (cfg : Config) (repo : RepoState) : Bool :=
  cfg.appendGitHash && repo.opens && isErrB repo.head

/-! Concrete configurations, entries, trees and worlds used to instantiate the
theorems below at evaluable inputs. -/

/-- Concrete configuration for the C1 witness: include `rs`, exclude `txt`. -/
def cfgC1 : Config :=
  { includeExts := [str "rs"], excludeExts := [str "txt"],
    format := Format.markdown, appendDate := false, appendGitHash := false,
    lineNumbers := false, ignoreHidden := true, respectGitignore := true,
    output := none }

/-- Concrete file entry for the C1 witness. -/
def entC1 : Entry :=
  ⟨[str "root", str "a.rs"], str "a.rs", false, str "fn main"⟩

/-- Concrete ignore matcher for the C2 witness: nothing is ignored. -/
def gC2 : IgnoreMatcher := fun _ _ => false

/-- Concrete configuration for the C2 witness: hidden files are skipped. -/
def cfgC2 : Config :=
  { includeExts := [], excludeExts := [], format := Format.console,
    appendDate := false, appendGitHash := false, lineNumbers := false,
    ignoreHidden := true, respectGitignore := true, output := none }

/-- Concrete tree for the C2 witness: a hidden file next to a normal one. -/
def fsC2 : FSNode :=
  FSNode.dir (str "root")
    [FSNode.file (str ".secret.rs") (str "x"),
     FSNode.file (str "a.rs") (str "y")]

/-- Concrete hidden entry for the C2 witness. -/
def entC2 : Entry :=
  ⟨[str "root", str ".secret.rs"], str ".secret.rs", false, str "x"⟩

/-- Concrete tree for the C10 witness: the root is the path `.` (as `walkdir`
reports it) with a visible child file. -/
def fsC10 : FSNode :=
  FSNode.dir (str ".") [FSNode.file (str "a.rs") (str "x")]

/-- Configuration for the C3 counterexample: no decoration, output to
stdout. -/
def cfgC3 : Config :=
  { includeExts := [], excludeExts := [], format := Format.console,
    appendDate := false, appendGitHash := false, lineNumbers := false,
    ignoreHidden := false, respectGitignore := true, output := none }

/-- Repository state for the C3 counterexample: not a repository. -/
def repoC3 : RepoState := ⟨false, Except.ok none⟩

/-- Configuration for the C3 witness: an output file is configured. -/
def cfgC3w : Config :=
  { includeExts := [], excludeExts := [], format := Format.console,
    appendDate := false, appendGitHash := false, lineNumbers := false,
    ignoreHidden := false, respectGitignore := true,
    output := some (str "out.txt") }

/-- Configuration for the C8 witness: date and git-hash decoration requested,
text format with line numbers, output file configured. -/
def cfgC8 : Config :=
  { includeExts := [], excludeExts := [], format := Format.text,
    appendDate := true, appendGitHash := true, lineNumbers := true,
    ignoreHidden := false, respectGitignore := false,
    output := some (str "out.txt") }

/-- File entry for the C8 witness. -/
def entC8 : Entry :=
  ⟨[str "root", str "n.txt"], str "n.txt", false, str "hello"⟩

/-- Walker results for the C8 witness. -/
def resC8 : List (Except (List Char) Entry) := [Except.ok entC8]

/-- The content the C8 witness run writes. -/
def runOutC8 : List Char :=
  ((resC8.map (processEntryStep cfgC8 (fun _ => true) (fun _ => true))).flatten)

/-! Character-list forms of the literal text fragments used by the renderer. -/

theorem strMdHeading : str "### `" = '#' :: '#' :: '#' :: ' ' :: '`' :: [] := rfl

theorem strBtNl : str "`\n" = '`' :: '\n' :: [] := rfl

theorem strBtNlNl : str "`\n\n" = '`' :: '\n' :: '\n' :: [] := rfl

theorem strFence : str "```" = '`' :: '`' :: '`' :: [] := rfl

theorem strFenceNl : str "```\n" = '`' :: '`' :: '`' :: '\n' :: [] := rfl

theorem strFenceNlNl : str "```\n\n" = '`' :: '`' :: '`' :: '\n' :: '\n' :: [] := rfl

theorem strDotSlash : str "./" = '.' :: '/' :: [] := rfl

theorem strNlDashes : str "\n---" = '\n' :: '-' :: '-' :: '-' :: [] := rfl

theorem strNlDashesNl : str "\n---\n" = '\n' :: '-' :: '-' :: '-' :: '\n' :: [] := rfl

theorem strDashes : str "---" = '-' :: '-' :: '-' :: [] := rfl

theorem strDashesNl : str "---\n" = '-' :: '-' :: '-' :: '\n' :: [] := rfl

/-- C9: for every path, content, extension and line-number setting, rendering
with the Text format is identical to rendering with the Console format, and
both produce the line `./<relative path>`, a line of three dashes, the
(optionally line-numbered) content, and a closing line of three dashes. -/
theorem textConsoleIdentical :
    ∀ (p c ext : List Char) (ln : Bool),
      writeFileContent Format.text p c ext ln =
        writeFileContent Format.console p c ext ln ∧
      writeFileContent Format.text p c ext ln =
        str "./" ++ p ++ str "\n---\n" ++ writeContentLines ln c ++
          str "---\n" := by
  intro p c ext ln
  refine ⟨rfl, ?_⟩
  simp only [writeFileContent, writelnStr, strDotSlash, strNlDashes,
    strNlDashesNl, strDashes, strDashesNl, List.cons_append, List.nil_append,
    List.append_assoc]

/-- C5: for every rendered file in Markdown format, the emitted block is a
heading line containing the backtick-quoted relative path, a blank line, a
code fence opened with the extension as language tag, the (optionally
line-numbered) content, and a closing fence followed by a blank line; with
line numbers disabled the block contains the file's content verbatim (as a
contiguous substring of the block). -/
theorem markdownBlockStructure :
    ∀ (p c ext : List Char) (ln : Bool),
      writeFileContent Format.markdown p c ext ln =
        str "### `" ++ p ++ str "`\n\n" ++ str "```" ++ ext ++ ['\n'] ++
          writeContentLines ln c ++ str "```\n\n" ∧
      (ln = false → c <:+: writeFileContent Format.markdown p c ext ln) := by
  intro p c ext ln
  constructor
  · simp only [writeFileContent, writelnStr, strMdHeading, strBtNl, strBtNlNl,
      strFence, strFenceNl, strFenceNlNl, List.cons_append, List.nil_append,
      List.append_assoc]
  · intro hln
    subst hln
    refine ⟨writelnStr (str "### `" ++ p ++ str "`\n") ++
      writelnStr (str "```" ++ ext), '\n' :: writelnStr (str "```\n"), ?_⟩
    simp only [writeFileContent, writeContentLines, Bool.false_eq_true,
      if_false, writelnStr, List.cons_append, List.nil_append,
      List.append_assoc]

/-- C5 witness: a concrete file's content is contained verbatim in its
Markdown block. -/
theorem markdownBlockStructureWitness :
    str "fn main" <:+:
      writeFileContent Format.markdown (str "a.rs") (str "fn main")
        (str "rs") false :=
  (markdownBlockStructure (str "a.rs") (str "fn main") (str "rs") false).2 rfl

/-- C6 (amended): with line numbers disabled the rendered content section is
the content followed by exactly one newline (the terminator of the single
`writeln!`); in particular it is never byte-for-byte equal to the content. -/
theorem verbatimPlusNewline :
    ∀ c : List Char, writeContentLines false c = c ++ ['\n'] ∧
      writeContentLines false c ≠ c := by
  intro c
  refine ⟨rfl, ?_⟩
  intro h
  have hlen : (c ++ ['\n']).length = c.length := by
    rw [show writeContentLines false c = c ++ ['\n'] from rfl] at h
    rw [h]
  simp at hlen

/-- C6 counterexample: the content section is not byte-for-byte equal to the
content (a newline is appended), already for the one-character content `a`. -/
theorem verbatimPlusNewlineCounterexample :
    ¬ (writeContentLines false (str "a") = str "a") := by decide

/-- The numbered-line loop writes, for a list of lines, the flattening of the
per-line blocks `pad4 (i + j + 1) ++ " | " ++ line ++ "\n"`. -/
theorem writeNumbered_eq (ls : List (List Char)) :
    ∀ i, writeNumbered i ls =
      ((List.range ls.length).map
        (fun j => pad4 (numStr (i + j + 1)) ++ str " | " ++ ls.getD j [] ++
          ['\n'])).flatten := by
  induction ls with
  | nil => intro i; rfl
  | cons l ls ih =>
      intro i
      have hfun :
          (fun j => pad4 (numStr (i + (j + 1) + 1)) ++ str " | " ++
            ((l :: ls).getD (j + 1) []) ++ ['\n']) =
          (fun j => pad4 (numStr (i + 1 + j + 1)) ++ str " | " ++
            ls.getD j [] ++ ['\n']) := by
        funext j
        have e : i + (j + 1) + 1 = i + 1 + j + 1 := by omega
        rw [e, List.getD_cons_succ]
      rw [List.length_cons, List.range_succ_eq_map, List.map_cons,
        List.flatten_cons, List.map_map]
      have hcomp :
          ((fun j => pad4 (numStr (i + j + 1)) ++ str " | " ++
            ((l :: ls).getD j []) ++ ['\n']) ∘ Nat.succ) =
          (fun j => pad4 (numStr (i + 1 + j + 1)) ++ str " | " ++
            ls.getD j [] ++ ['\n']) := by
        rw [← hfun]; rfl
      rw [hcomp, ← ih (i + 1)]
      show pad4 (numStr (i + 1)) ++ str " | " ++ l ++ ['\n'] ++
        writeNumbered (i + 1) ls = _
      simp only [List.getD_cons_zero, Nat.add_zero, List.append_assoc]

/-- Lines produced by the `rustLines` splitter contain no newline character
(invariant of the accumulator-based scan). -/
theorem rustLinesAux_no_nl :
    ∀ (cs acc : List Char), '\n' ∉ acc →
      ∀ l ∈ rustLinesAux cs acc, '\n' ∉ l := by
  intro cs
  induction cs with
  | nil =>
      intro acc hacc l hl
      rw [rustLinesAux] at hl
      by_cases he : acc.isEmpty
      · rw [if_pos he] at hl; simp at hl
      · rw [if_neg he] at hl
        simp only [List.mem_singleton] at hl
        subst hl
        simpa using hacc
  | cons c cs ih =>
      intro acc hacc l hl
      rw [rustLinesAux] at hl
      by_cases hc : c = '\n'
      · rw [if_pos hc] at hl
        rcases List.mem_cons.mp hl with rfl | hl
        · unfold finishLine
          by_cases hr : acc.head? = some '\r'
          · rw [if_pos hr]
            intro hmem
            exact hacc (List.mem_of_mem_tail (List.mem_reverse.mp hmem))
          · rw [if_neg hr]
            intro hmem
            exact hacc (List.mem_reverse.mp hmem)
        · exact ih [] (by simp) l hl
      · rw [if_neg hc] at hl
        refine ih (c :: acc) ?_ l hl
        intro hmem
        rcases List.mem_cons.mp hmem with h | h
        · exact hc h.symm
        · exact hacc h

/-- Every element of `rustLines content` is free of newline characters, so the
numbered rendering emits exactly one output line per content line. -/
theorem rustLines_no_nl : ∀ (c l : List Char), l ∈ rustLines c → '\n' ∉ l :=
  fun c l h => rustLinesAux_no_nl c [] (by simp) l h

/-- C4: with line numbers enabled, rendering content whose `lines()` iterator
yields N lines emits exactly the N blocks `pad4 (i + 1) ++ " | " ++ line ++
newline` for i = 0 .. N-1 (the 1-based number right-aligned in a 4-character
field, then a bar separator, then the unmodified line); no content line
contains a newline, so these are exactly N output lines; in particular the
content `Example text file content` yields the output line
`   1 | Example text file content`. -/
theorem lineNumberRendering :
    (∀ c : List Char, writeContentLines true c =
      ((List.range (rustLines c).length).map
        (fun i => pad4 (numStr (i + 1)) ++ str " | " ++
          (rustLines c).getD i [] ++ ['\n'])).flatten) ∧
    (∀ c l : List Char, l ∈ rustLines c → '\n' ∉ l) ∧
    writeContentLines true (str "Example text file content") =
      str "   1 | Example text file content" ++ ['\n'] := by
  refine ⟨?_, rustLines_no_nl, by decide⟩
  intro c
  have h := writeNumbered_eq (rustLines c) 0
  have hfun :
      (fun j => pad4 (numStr (0 + j + 1)) ++ str " | " ++
        (rustLines c).getD j [] ++ ['\n']) =
      (fun j => pad4 (numStr (j + 1)) ++ str " | " ++
        (rustLines c).getD j [] ++ ['\n']) := by
    funext j
    rw [Nat.zero_add]
  rw [hfun] at h
  exact h

/-- C4 witness: the no-newline invariant applied to a concrete two-line
content. -/
theorem lineNumberRenderingWitness : '\n' ∉ str "ab" :=
  lineNumberRendering.2.1 (str "ab\ncd") (str "ab") (by decide)

/-- The include-filter activation test is true exactly when the include list is
non-empty and not the single empty-string sentinel. -/
theorem applyIncludeFilter_iff (cfg : Config) :
    applyIncludeFilter cfg = true ↔
      (cfg.includeExts ≠ [] ∧ cfg.includeExts ≠ [[]]) := by
  rcases hcfg : cfg.includeExts with _ | ⟨x, _ | ⟨y, t⟩⟩
  · simp [applyIncludeFilter, hcfg]
  · simp [applyIncludeFilter, hcfg, List.isEmpty_iff]
  · simp [applyIncludeFilter, hcfg]

/-- The two extension checks of `process_file_entry` accept exactly when an
active include list contains the extension and the exclude list does not. -/
theorem extensionAccepts_iff (cfg : Config) (ext : List Char) :
    extensionAccepts cfg ext = true ↔
      (((cfg.includeExts ≠ [] ∧ cfg.includeExts ≠ [[]]) →
        ext ∈ cfg.includeExts) ∧ ext ∉ cfg.excludeExts) := by
  rw [← applyIncludeFilter_iff]
  unfold extensionAccepts
  by_cases hA : applyIncludeFilter cfg = true <;>
    by_cases hin : ext ∈ cfg.includeExts <;>
    by_cases hex : ext ∈ cfg.excludeExts <;>
    simp [hA, hin, hex]

/-- A file entry's processing produces a block exactly when the entry is not a
directory and its extension passes the filter. -/
theorem processFileEntry_isSome_iff (cfg : Config) (e : Entry) :
    (processFileEntry cfg e).isSome = true ↔
      (e.isDir = false ∧
        extensionAccepts cfg (rustExtension e.name) = true) := by
  cases hd : e.isDir <;>
    by_cases hacc : extensionAccepts cfg (rustExtension e.name) = true <;>
    simp [processFileEntry, hd, hacc]

/-- C1: a file entry is rendered iff (1) whenever the include filter is active
(include non-empty and not exactly the single empty string) the file's
extension is a member of the include list, and (2) the extension is not a
member of the exclude list; an extension in the exclude list is rejected
regardless of the include list, and with the empty or sentinel include list
only the exclude check applies. -/
theorem extensionFilterSpec :
    ∀ (cfg : Config) (e : Entry), e.isDir = false →
      ((processFileEntry cfg e).isSome = true ↔
        (((cfg.includeExts ≠ [] ∧ cfg.includeExts ≠ [[]]) →
          rustExtension e.name ∈ cfg.includeExts) ∧
         rustExtension e.name ∉ cfg.excludeExts)) ∧
      (rustExtension e.name ∈ cfg.excludeExts →
        processFileEntry cfg e = none) ∧
      ((cfg.includeExts = [] ∨ cfg.includeExts = [[]]) →
        ((processFileEntry cfg e).isSome = true ↔
          rustExtension e.name ∉ cfg.excludeExts)) := by
  intro cfg e hdir
  have hmain : (processFileEntry cfg e).isSome = true ↔
      (((cfg.includeExts ≠ [] ∧ cfg.includeExts ≠ [[]]) →
        rustExtension e.name ∈ cfg.includeExts) ∧
       rustExtension e.name ∉ cfg.excludeExts) := by
    rw [processFileEntry_isSome_iff, extensionAccepts_iff]
    simp [hdir]
  refine ⟨hmain, ?_, ?_⟩
  · intro hex
    cases hval : processFileEntry cfg e with
    | none => rfl
    | some b =>
        have : (processFileEntry cfg e).isSome = true := by rw [hval]; rfl
        exact absurd (hmain.mp this).2 (by simp [hex])
  · intro hsent
    rw [hmain]
    constructor
    · intro h; exact h.2
    · intro h
      refine ⟨?_, h⟩
      intro hact
      rcases hsent with hs | hs
      · exact absurd hs hact.1
      · exact absurd hs hact.2

/-- C1 witness: the concrete `a.rs` file passes the active include filter. -/
theorem extensionFilterSpecWitness : (processFileEntry cfgC1 entC1).isSome = true :=
  (extensionFilterSpec cfgC1 entC1 (by decide)).1.mpr (by decide)

/-- No dot in the scanned suffix means no extension is found. -/
theorem extFromRev_no_dot :
    ∀ (r acc : List Char), '.' ∉ r → extFromRev r acc = none := by
  intro r
  induction r with
  | nil => intro acc h; rfl
  | cons c cs ih =>
      intro acc h
      rw [extFromRev]
      have hc : ¬ c = '.' := fun hc => h (by simp [hc])
      rw [if_neg hc]
      exact ih _ (fun hm => h (List.mem_cons_of_mem c hm))

/-- Scanning a reversed name that splits as `r1 ++ '.' :: r2` with no dot in
`r1` finds the extension `r1.reverse` unless the dot is the name's first
character (`r2` empty). -/
theorem extFromRev_split :
    ∀ (r1 r2 acc : List Char), '.' ∉ r1 →
      extFromRev (r1 ++ '.' :: r2) acc =
        if r2.isEmpty then none else some (r1.reverse ++ acc) := by
  intro r1
  induction r1 with
  | nil =>
      intro r2 acc h
      rw [List.nil_append, extFromRev, if_pos rfl]
      simp
  | cons c cs ih =>
      intro r2 acc h
      have hc : ¬ c = '.' := fun hc => h (by simp [hc])
      rw [List.cons_append, extFromRev, if_neg hc,
        ih r2 (c :: acc) (fun hm => h (List.mem_cons_of_mem c hm))]
      by_cases he : r2.isEmpty
      · rw [if_pos he, if_pos he]
      · rw [if_neg he, if_neg he]
        simp

/-- C7 (amended): the extension the filter and renderer use is the substring
after the final `.` of the file name, except that a name containing no `.`,
or whose only `.` is its leading character (a dotfile such as `.gitignore`),
has extension the empty string; a file whose extension fails an active include
filter is not rendered. -/
theorem extensionExtraction :
    (∀ name : List Char, '.' ∉ name → rustExtension name = []) ∧
    (∀ pre post : List Char, '.' ∉ post →
      rustExtension (pre ++ '.' :: post) =
        if pre = [] then [] else post) ∧
    (∀ (cfg : Config) (e : Entry), e.isDir = false →
      cfg.includeExts ≠ [] → cfg.includeExts ≠ [[]] →
      rustExtension e.name ∉ cfg.includeExts →
      processFileEntry cfg e = none) := by
  refine ⟨?_, ?_, ?_⟩
  · intro name h
    unfold rustExtension
    rw [extFromRev_no_dot _ _ (fun hm => h (List.mem_reverse.mp hm))]
    rfl
  · intro pre post h
    unfold rustExtension
    have hrev : (pre ++ '.' :: post).reverse =
        post.reverse ++ '.' :: pre.reverse := by
      rw [List.reverse_append, List.reverse_cons, List.append_assoc]
      rfl
    rw [hrev, extFromRev_split _ _ _ (fun hm => h (List.mem_reverse.mp hm))]
    by_cases hp : pre = []
    · subst hp
      rw [if_pos rfl]
      simp
    · have : ¬ pre.reverse.isEmpty := by
        simpa [List.isEmpty_iff] using hp
      rw [if_neg this, if_neg hp]
      simp
  · intro cfg e hdir hne hsent hnotin
    cases hval : processFileEntry cfg e with
    | none => rfl
    | some b =>
        have hs : (processFileEntry cfg e).isSome = true := by rw [hval]; rfl
        have := (processFileEntry_isSome_iff cfg e).mp hs
        have hacc := (extensionAccepts_iff cfg (rustExtension e.name)).mp this.2
        exact absurd (hacc.1 ⟨hne, hsent⟩) hnotin

/-- C7 counterexample: for the dotfile name `.gitignore` the code's extension
is the empty string, while the substring after the final `.` (the claim's
description, computed by `specExtension`) is `gitignore`. -/
theorem extensionExtractionCounterexample :
    rustExtension (str ".gitignore") = [] ∧
    specExtension (str ".gitignore") = str "gitignore" ∧
    (str "gitignore" : List Char) ≠ [] := by decide

/-- C7 witness: the amended split rule and the include-filter consequence at
concrete inputs. -/
theorem extensionExtractionWitness :
    rustExtension (str "a" ++ '.' :: str "rs") =
      if (str "a" : List Char) = [] then [] else str "rs" :=
  extensionExtraction.2.1 (str "a") (str "rs") (by decide)

/-- Induction principle on filesystem trees with the usual list-membership
hypothesis for directory children. -/
theorem fs_ind {P : FSNode → Prop}
    (hf : ∀ n c, P (FSNode.file n c))
    (hd : ∀ n ch, (∀ x ∈ ch, P x) → P (FSNode.dir n ch)) : ∀ t, P t
  | FSNode.file n c => hf n c
  | FSNode.dir n ch => hd n ch (fun x _hx => fs_ind hf hd x)
termination_by t => sizeOf t
decreasing_by
  have := List.sizeOf_lt_of_mem _hx
  simp only [FSNode.dir.sizeOf_spec]
  omega

/-- Membership in the walk of a sibling list comes from the walk of one
sibling. -/
theorem mem_walkList (g : IgnoreMatcher) (cfg : Config)
    (parent : List (List Char)) (e : Entry) :
    ∀ ts : List FSNode, e ∈ walkList g cfg parent ts →
      ∃ t ∈ ts, e ∈ walk g cfg parent t := by
  intro ts
  induction ts with
  | nil => intro h; simp [walkList] at h
  | cons t ts ih =>
      intro h
      rw [walkList] at h
      rcases List.mem_append.mp h with h | h
      · exact ⟨t, by simp, h⟩
      · obtain ⟨u, hu, he⟩ := ih h
        exact ⟨u, by simp [hu], he⟩

/-- Every entry the filtered walk yields passed `should_include_entry`
(pruned entries and their subtrees are never yielded). -/
theorem walk_included (g : IgnoreMatcher) (cfg : Config) :
    ∀ t : FSNode, ∀ (parent : List (List Char)) (e : Entry),
      e ∈ walk g cfg parent t → shouldIncludeEntry g cfg e = true := by
  refine fs_ind ?_ ?_
  · intro n c parent e h
    rw [walk] at h
    by_cases hc : shouldIncludeEntry g cfg ⟨parent ++ [n], n, false, c⟩ = true
    · rw [if_pos hc] at h
      simp only [List.mem_singleton] at h
      subst h
      exact hc
    · rw [if_neg hc] at h
      simp at h
  · intro n ch ih parent e h
    rw [walk] at h
    by_cases hc : shouldIncludeEntry g cfg ⟨parent ++ [n], n, true, []⟩ = true
    · rw [if_pos hc] at h
      rcases List.mem_cons.mp h with rfl | h
      · exact hc
      · obtain ⟨t, ht, he⟩ := mem_walkList g cfg _ e ch h
        exact ih t ht _ e he
    · rw [if_neg hc] at h
      simp at h

/-- Every entry the walk yields has its own name as the final component of its
path. -/
theorem walk_lastName (g : IgnoreMatcher) (cfg : Config) :
    ∀ t : FSNode, ∀ (parent : List (List Char)) (e : Entry),
      e ∈ walk g cfg parent t → e.path.getLast? = some e.name := by
  refine fs_ind ?_ ?_
  · intro n c parent e h
    rw [walk] at h
    by_cases hc : shouldIncludeEntry g cfg ⟨parent ++ [n], n, false, c⟩ = true
    · rw [if_pos hc] at h
      simp only [List.mem_singleton] at h
      subst h
      exact List.getLast?_concat _
    · rw [if_neg hc] at h
      simp at h
  · intro n ch ih parent e h
    rw [walk] at h
    by_cases hc : shouldIncludeEntry g cfg ⟨parent ++ [n], n, true, []⟩ = true
    · rw [if_pos hc] at h
      rcases List.mem_cons.mp h with rfl | h
      · exact List.getLast?_concat _
      · obtain ⟨t, ht, he⟩ := mem_walkList g cfg _ e ch h
        exact ih t ht _ e he
    · rw [if_neg hc] at h
      simp at h

/-- Membership in the file universe of a sibling list comes from one
sibling. -/
theorem mem_allFilesList (parent : List (List Char)) (e : Entry) :
    ∀ ts : List FSNode, e ∈ allFilesList parent ts →
      ∃ t ∈ ts, e ∈ allFiles parent t := by
  intro ts
  induction ts with
  | nil => intro h; simp [allFilesList] at h
  | cons t ts ih =>
      intro h
      rw [allFilesList] at h
      rcases List.mem_append.mp h with h | h
      · exact ⟨t, by simp, h⟩
      · obtain ⟨u, hu, he⟩ := ih h
        exact ⟨u, by simp [hu], he⟩

/-- Every entry of the file universe is a file whose name is the final
component of its path. -/
theorem allFiles_shape :
    ∀ t : FSNode, ∀ (parent : List (List Char)) (e : Entry),
      e ∈ allFiles parent t →
        e.isDir = false ∧ e.path.getLast? = some e.name := by
  refine fs_ind ?_ ?_
  · intro n c parent e h
    rw [allFiles] at h
    simp only [List.mem_singleton] at h
    subst h
    exact ⟨rfl, List.getLast?_concat _⟩
  · intro n ch ih parent e h
    rw [allFiles] at h
    obtain ⟨t, ht, he⟩ := mem_allFilesList _ e ch h
    exact ih t ht _ e he

/-- C2: an entry is included by the rule matcher iff it is neither hidden
(`ignore_hidden` set and base name starting with a dot) nor ignored
(`respect_gitignore` set and the ignore rule set matching the path as
ignored); consequently a file of the tree that is hidden, ignored, or rejected
by the extension filter never has its path among the rendered files of the
run's output. -/
theorem ruleMatcherAndExclusion :
    (∀ (g : IgnoreMatcher) (cfg : Config) (e : Entry),
      shouldIncludeEntry g cfg e = true ↔
        (¬(cfg.ignoreHidden = true ∧ startsWithDot e.name = true) ∧
         ¬(cfg.respectGitignore = true ∧ g e.path e.isDir = true))) ∧
    (∀ (g : IgnoreMatcher) (cfg : Config) (t : FSNode) (e : Entry),
      e ∈ allFiles [] t →
      (isHidden cfg e = true ∨ isIgnored g cfg e = true ∨
        extensionAccepts cfg (rustExtension e.name) = false) →
      e.path ∉ (renderedEntries g cfg t).map Entry.path) := by
  constructor
  · intro g cfg e
    cases hh : cfg.ignoreHidden <;> cases hr : cfg.respectGitignore <;>
      cases hs : startsWithDot e.name <;> cases hg : g e.path e.isDir <;>
      simp [shouldIncludeEntry, isHidden, isIgnored, hh, hr, hs, hg]
  · intro g cfg t e hmem hrej hin
    obtain ⟨e', he'r, hpath⟩ := List.mem_map.mp hin
    unfold renderedEntries at he'r
    obtain ⟨he'w, hsome⟩ := List.mem_filter.mp he'r
    have hsi := walk_included g cfg t [] e' he'w
    have hln' := walk_lastName g cfg t [] e' he'w
    obtain ⟨hdir, hln⟩ := allFiles_shape t [] e hmem
    have hname : e'.name = e.name := by
      rw [hpath, hln] at hln'
      exact (Option.some_injective _ hln').symm
    obtain ⟨hdir', hacc'⟩ := (processFileEntry_isSome_iff cfg e').mp hsome
    have hnh : isHidden cfg e' = false := by
      cases hh : isHidden cfg e' with
      | false => rfl
      | true => simp [shouldIncludeEntry, hh] at hsi
    have hni : isIgnored g cfg e' = false := by
      cases hh : isIgnored g cfg e' with
      | false => rfl
      | true => simp [shouldIncludeEntry, hh] at hsi
    rcases hrej with hh | hh | hh
    · have : isHidden cfg e' = true := by
        rw [isHidden] at hh ⊢
        rw [hname]
        exact hh
      rw [this] at hnh
      exact Bool.true_eq_false.mp hnh
    · have : isIgnored g cfg e' = true := by
        rw [isIgnored] at hh ⊢
        rw [hpath, hdir']
        rw [hdir] at hh
        exact hh
      rw [this] at hni
      exact Bool.true_eq_false.mp hni
    · rw [← hname] at hh
      rw [hh] at hacc'
      exact Bool.false_eq_true.mp hacc'

/-- C2 witness: the hidden file's path is absent from the rendered paths of
the concrete run. -/
theorem ruleMatcherAndExclusionWitness :
    entC2.path ∉ (renderedEntries gC2 cfgC2 fsC2).map Entry.path :=
  ruleMatcherAndExclusion.2 gC2 cfgC2 fsC2 entC2 (by decide)
    (Or.inl (by decide))

/-- C10: when `ignore_hidden` is set and the name the walker reports for the
root entry begins with a dot (for a root path such as `.` that name is the
path itself), the root is rejected by `filter_entry`, nothing is walked, and
the run's content output is empty. -/
theorem hiddenRootPrunesEverything :
    ∀ (g : IgnoreMatcher) (cfg : Config) (t : FSNode),
      cfg.ignoreHidden = true → startsWithDot (FSNode.name t) = true →
      walk g cfg [] t = [] ∧ runContent g cfg t = [] := by
  intro g cfg t hhid hdot
  have hw : walk g cfg [] t = [] := by
    cases t with
    | file n c =>
        have hdot' : startsWithDot n = true := hdot
        have hni :
            ¬ shouldIncludeEntry g cfg ⟨[] ++ [n], n, false, c⟩ = true := by
          simp [shouldIncludeEntry, isHidden, hhid, hdot']
        rw [walk, if_neg hni]
    | dir n ch =>
        have hdot' : startsWithDot n = true := hdot
        have hni :
            ¬ shouldIncludeEntry g cfg ⟨[] ++ [n], n, true, []⟩ = true := by
          simp [shouldIncludeEntry, isHidden, hhid, hdot']
        rw [walk, if_neg hni]
  exact ⟨hw, by rw [runContent, hw]; rfl⟩

/-- C10 witness: with `ignore_hidden` set, the run over a root named `.`
yields no walked entries and empty content. -/
theorem hiddenRootPrunesEverythingWitness :
    walk gC2 cfgC2 [] fsC10 = [] ∧ runContent gC2 cfgC2 fsC10 = [] :=
  hiddenRootPrunesEverything gC2 cfgC2 fsC10 (by decide) (by decide)

/-- The name-decoration step, characterized: it fails exactly on the
run-aborting HEAD failure (with an output path present), and otherwise
resolves the configured name to `finalOutputName`. -/
theorem appendDateAndGitHash_eq (cfg : Config) (date : List Char)
    (repo : RepoState) :
    appendDateAndGitHash cfg date repo =
      match cfg.output with
      | none => Except.ok none
      | some path =>
          if gitHeadFailsB cfg repo = true
          then Except.error (str "Failed to get repository HEAD")
          else Except.ok (some (finalOutputName cfg date repo path)) := by
  cases ho : cfg.output with
  | none => simp [appendDateAndGitHash, ho]
  | some path =>
      cases hg : cfg.appendGitHash <;> cases hop : repo.opens <;>
        rcases hh : repo.head with e | (_ | oid) <;>
        simp [appendDateAndGitHash, finalOutputName, gitHeadFailsB, isErrB,
          ho, hg, hop, hh]

/-- C3 (amended): the run fails iff an output path is configured and either
the run-aborting HEAD failure occurs (git-hash append requested on a directory
that opens as a repository whose HEAD cannot be read) or the output file
cannot be created at the resolved name.  In particular the failure condition
does not depend on the walker's results (an unopenable root included), on
per-file readability, or on per-file write errors: all of those are logged
and the run still succeeds. -/
theorem runFailsIff :
    ∀ (cfg : Config) (date : List Char) (repo : RepoState)
      (sinkOk : List Char → Bool) (readOk writeOk : Entry → Bool)
      (results : List (Except (List Char) Entry)),
      isErrB (runE cfg date repo sinkOk readOk writeOk results) = true ↔
        ∃ path, cfg.output = some path ∧
          (gitHeadFailsB cfg repo = true ∨
           sinkOk (resolvedOutputName cfg date repo path) = false) := by
  intro cfg date repo sinkOk readOk writeOk results
  cases hA : (cfg.appendDate || cfg.appendGitHash) with
  | false =>
      obtain ⟨hd, hg⟩ : cfg.appendDate = false ∧ cfg.appendGitHash = false :=
        by simpa using hA
      cases ho : cfg.output with
      | none =>
          simp [runE, hA, ho, determineOutputWriter, processDirectoryE,
            isErrB]
      | some path =>
          cases hs : sinkOk path <;>
            simp [runE, hA, ho, hs, determineOutputWriter, processDirectoryE,
              isErrB, gitHeadFailsB, hd, hg, resolvedOutputName]
  | true =>
      cases ho : cfg.output with
      | none =>
          simp [runE, hA, appendDateAndGitHash_eq, ho, determineOutputWriter,
            processDirectoryE, isErrB]
      | some path =>
          by_cases hgf : gitHeadFailsB cfg repo = true
          · simp [runE, hA, appendDateAndGitHash_eq, ho, hgf, isErrB]
          · have hgf' : gitHeadFailsB cfg repo = false := by
              cases h : gitHeadFailsB cfg repo
              · rfl
              · exact absurd h hgf
            cases hs : sinkOk (resolvedOutputName cfg date repo path) with
            | false =>
                have hs' : sinkOk (finalOutputName cfg date repo path) =
                    false := by
                  rw [resolvedOutputName, hA] at hs
                  simpa using hs
                simp [runE, hA, appendDateAndGitHash_eq, ho, hgf', hs', hs,
                  determineOutputWriter, processDirectoryE, isErrB]
            | true =>
                have hs' : sinkOk (finalOutputName cfg date repo path) =
                    true := by
                  rw [resolvedOutputName, hA] at hs
                  simpa using hs
                simp [runE, hA, appendDateAndGitHash_eq, ho, hgf', hs', hs,
                  determineOutputWriter, processDirectoryE, isErrB]

/-- C3 counterexample: a run whose walker cannot open the root directory for
traversal (the walker's whole yield is one access error, which
`process_directory` merely logs) still returns success with empty content —
the claim that such a run returns failure is false on the code. -/
theorem runFailsIffCounterexample :
    runE cfgC3 (str "20250101") repoC3 (fun _ => true) (fun _ => true)
      (fun _ => true) [Except.error (str "cannot open root directory")] =
      Except.ok [] := by decide

/-- C3 witness: with an output path whose creation fails, the run fails. -/
theorem runFailsIffWitness :
    isErrB (runE cfgC3w (str "20250101") repoC3 (fun _ => false)
      (fun _ => true) (fun _ => true) []) = true :=
  (runFailsIff cfgC3w (str "20250101") repoC3 (fun _ => false)
    (fun _ => true) (fun _ => true) []).mpr
    ⟨str "out.txt", rfl, Or.inr (by decide)⟩

/-- A successful run's content is the flattening of the per-entry
contributions: it depends only on the configuration, the per-entry oracles,
and the walker results — not on the date or the repository state. -/
theorem runE_ok_content (cfg : Config) (date : List Char) (repo : RepoState)
    (sinkOk : List Char → Bool) (readOk writeOk : Entry → Bool)
    (results : List (Except (List Char) Entry)) (out : List Char) :
    runE cfg date repo sinkOk readOk writeOk results = Except.ok out →
    out = (results.map (processEntryStep cfg readOk writeOk)).flatten := by
  intro h
  unfold runE at h
  split at h
  · exact absurd h (by simp)
  · split at h
    · exact absurd h (by simp)
    · unfold processDirectoryE at h
      injection h with h
      exact h.symm

/-- C8: two runs with identical configuration and identical walker results
(identical filesystem contents) that both succeed produce byte-identical
content, whatever the wall-clock date and repository state are; date and
git-hash decoration can influence only the resolved output file name, never a
byte of the content stream. -/
theorem contentIndependentOfDateAndRepo :
    ∀ (cfg : Config) (d1 d2 : List Char) (r1 r2 : RepoState)
      (sinkOk : List Char → Bool) (readOk writeOk : Entry → Bool)
      (results : List (Except (List Char) Entry)) (out1 out2 : List Char),
      runE cfg d1 r1 sinkOk readOk writeOk results = Except.ok out1 →
      runE cfg d2 r2 sinkOk readOk writeOk results = Except.ok out2 →
      out1 = out2 := by
  intro cfg d1 d2 r1 r2 sinkOk readOk writeOk results out1 out2 h1 h2
  rw [runE_ok_content cfg d1 r1 sinkOk readOk writeOk results out1 h1,
    runE_ok_content cfg d2 r2 sinkOk readOk writeOk results out2 h2]

/-- C8 witness: two concrete runs with different dates and different
repository states both succeed with the same content. -/
theorem contentIndependentOfDateAndRepoWitness : runOutC8 = runOutC8 :=
  contentIndependentOfDateAndRepo cfgC8 (str "20240101") (str "20250202")
    ⟨false, Except.ok none⟩ ⟨true, Except.ok (some (str "abcdef1234"))⟩
    (fun _ => true) (fun _ => true) (fun _ => true) resC8 runOutC8 runOutC8
    (by decide) (by decide)
